import Mathlib

/-!
Verification of the transcription engine of
`rtctools/optimization/collocated_integrated_optimization_problem.py`
(class `CollocatedIntegratedOptimizationProblem`).

The development shallowly embeds the parts of `transcribe`,
`discretize_controls`, `discretize_states`, `extract_controls` and
`extract_states` that the verified properties are about:

* a small symbolic-expression type `MXe` standing for the CasADi `MX`
  expression graphs that the DAE residual is made of, with structural
  dependency (`ca.depends_on`) and numeric evaluation;
* the row-wise splitting of the DAE residual into integrated and
  collocated subsets;
* the theta-method blending of the collocated residual over one
  collocation interval;
* the decision-vector layout arithmetic of `discretize_controls` /
  `discretize_states` and the inverse walk of `extract_controls` /
  `extract_states`;
* the numeric parts (parameter classification across the ensemble,
  seed/bound application, initial-condition bound overriding, delayed
  feedback finiteness checking) with IEEE special values (`nan`,
  `±inf`) represented explicitly.

Machine floats are modelled as exact rationals extended with the IEEE
special values that the code manipulates deliberately (`np.nan`,
`±np.inf`).
-/

namespace RTCTools

/-! ## Floating-point values with IEEE special values

`numpy` floats as used by the transcription code: either a finite value
(modelled exactly as a rational) or one of the special values `nan`,
`+inf`, `-inf` that the code uses as fill values and checks with
`np.isnan` / `np.isfinite`. -/

inductive Fp where
  | nan : Fp
  | pinf : Fp
  | ninf : Fp
  | fin : ℚ → Fp
deriving DecidableEq, Repr

/-- The test `np.isfinite`. -/
def Fp.isFinite : Fp → Bool
  | .fin _ => true
  | _ => false

/-- The test `np.isnan`. -/
def Fp.isNan : Fp → Bool
  | .nan => true
  | _ => false

/-- IEEE division of a float by a finite float (used for descaling a
value by a variable nominal). -/
def Fp.divQ : Fp → ℚ → Fp
  | .nan, _ => .nan
  | .fin q, n =>
      if n = 0 then (if q = 0 then .nan else if 0 < q then .pinf else .ninf)
      else .fin (q / n)
  | .pinf, n => if 0 < n then .pinf else if n < 0 then .ninf else .nan
  | .ninf, n => if 0 < n then .ninf else if n < 0 then .pinf else .nan

/-! ## Symbolic expressions

A CasADi `MX` expression over the symbols appearing in the DAE residual:
parameters, free variables (states/algebraics/controls), derivative
symbols, constant inputs, and time. -/

inductive CVar where
  | param : ℕ → CVar
  | state : ℕ → CVar
  | der : ℕ → CVar
  | constInput : ℕ → CVar
  | time : CVar
deriving DecidableEq, Repr

inductive MXe where
  | const : ℚ → MXe
  | var : CVar → MXe
  | add : MXe → MXe → MXe
  | sub : MXe → MXe → MXe
  | mul : MXe → MXe → MXe
deriving DecidableEq, Repr

/-- The query `ca.depends_on`: structural dependency of an expression on a symbol. -/
def MXe.dependsOn (v : CVar) : MXe → Bool
  | .const _ => false
  | .var w => w = v
  | .add a b => a.dependsOn v || b.dependsOn v
  | .sub a b => a.dependsOn v || b.dependsOn v
  | .mul a b => a.dependsOn v || b.dependsOn v

/-- Numeric evaluation of an expression under an assignment of the
symbols. -/
def MXe.eval (env : CVar → ℚ) : MXe → ℚ
  | .const q => q
  | .var v => env v
  | .add a b => a.eval env + b.eval env
  | .sub a b => a.eval env - b.eval env
  | .mul a b => a.eval env * b.eval env

/-! ## DAE splitter

`transcribe` splits the DAE residual row-wise
(`collocated_integrated_optimization_problem.py`, the loop over
`ca.vertsplit(dae_residual)`): a row goes to the integrated subset when
it structurally depends on at least one integrated-state derivative
symbol, and to the collocated subset otherwise; both subsets keep the
original row order.  The Python loop appends each row to one of two
lists. -/

/-- Does a residual row depend on some derivative symbol of the list
`intDers` of integrated-state derivatives (the inner
`for derivative in integrated_derivatives` loop)? -/
def rowContainsIntegratedDer (intDers : List CVar) (row : MXe) : Bool :=
  intDers.any (fun d => row.dependsOn d)

/-- The row-splitting loop of `transcribe`: fold over the residual rows,
appending each row to the integrated or the collocated accumulator. -/
def splitDaeAux (intDers : List CVar) :
    List MXe → List MXe × List MXe → List MXe × List MXe
  | [], acc => acc
  | row :: rest, (ints, colls) =>
      if rowContainsIntegratedDer intDers row then
        splitDaeAux intDers rest (ints ++ [row], colls)
      else
        splitDaeAux intDers rest (ints, colls ++ [row])

/-- The pair `dae_residual_integrated` / `dae_residual_collocated` as built by
`transcribe`. -/
def splitDae (intDers : List CVar) (rows : List MXe) : List MXe × List MXe :=
  splitDaeAux intDers rows ([], [])

lemma splitDaeAux_eq (intDers : List CVar) (rows : List MXe)
    (ints colls : List MXe) :
    splitDaeAux intDers rows (ints, colls) =
      (ints ++ rows.filter (rowContainsIntegratedDer intDers),
       colls ++ rows.filter (fun r => !rowContainsIntegratedDer intDers r)) := by
  induction rows generalizing ints colls with
  | nil => simp [splitDaeAux]
  | cons row rest ih =>
      by_cases h : rowContainsIntegratedDer intDers row
      · simp [splitDaeAux, h, ih]
      · simp [splitDaeAux, h, ih]

/-- Claim C3: the DAE splitter partitions the residual row-wise: the
integrated subset is exactly the rows that structurally depend on the
derivative symbol of some integrated state, in their original order, and
the collocated subset is exactly the remaining rows in their original
order; hence every row lands in exactly one subset, membership in the
integrated subset is equivalent to the dependency test, and relative
order is preserved within each subset. -/
theorem dae_splitter_partitions (intDers : List CVar) (rows : List MXe) :
    (splitDae intDers rows).1 =
        rows.filter (rowContainsIntegratedDer intDers) ∧
    (splitDae intDers rows).2 =
        rows.filter (fun r => !rowContainsIntegratedDer intDers r) ∧
    (∀ r ∈ rows,
      (r ∈ (splitDae intDers rows).1 ↔ rowContainsIntegratedDer intDers r) ∧
      ¬(r ∈ (splitDae intDers rows).1 ∧ r ∈ (splitDae intDers rows).2)) := by
  have h := splitDaeAux_eq intDers rows [] []
  refine ⟨?_, ?_, ?_⟩
  · simpa [splitDae] using congrArg Prod.fst h
  · simpa [splitDae] using congrArg Prod.snd h
  · intro r hr
    constructor
    · constructor
      · intro hmem
        have h1 : (splitDae intDers rows).1 =
            rows.filter (rowContainsIntegratedDer intDers) := by
          simpa [splitDae] using congrArg Prod.fst h
        rw [h1] at hmem
        exact (List.mem_filter.mp hmem).2
      · intro hdep
        have h1 : (splitDae intDers rows).1 =
            rows.filter (rowContainsIntegratedDer intDers) := by
          simpa [splitDae] using congrArg Prod.fst h
        rw [h1]
        exact List.mem_filter.mpr ⟨hr, hdep⟩
    · rintro ⟨h1mem, h2mem⟩
      have h1 : (splitDae intDers rows).1 =
          rows.filter (rowContainsIntegratedDer intDers) := by
        simpa [splitDae] using congrArg Prod.fst h
      have h2 : (splitDae intDers rows).2 =
          rows.filter (fun r => !rowContainsIntegratedDer intDers r) := by
        simpa [splitDae] using congrArg Prod.snd h
      rw [h1] at h1mem
      rw [h2] at h2mem
      have := (List.mem_filter.mp h1mem).2
      have := (List.mem_filter.mp h2mem).2
      simp_all

/-- Witness for `dae_splitter_partitions`: a residual with one row
depending on the integrated derivative `der 0` and one row that does
not. -/
theorem dae_splitter_partitions_witness :
    (splitDae [CVar.der 0]
        [MXe.var (CVar.der 0), MXe.var (CVar.state 1)]).1 =
      [MXe.var (CVar.der 0)] ∧
    (splitDae [CVar.der 0]
        [MXe.var (CVar.der 0), MXe.var (CVar.state 1)]).2 =
      [MXe.var (CVar.state 1)] := by
  have h := dae_splitter_partitions [CVar.der 0]
    [MXe.var (CVar.der 0), MXe.var (CVar.state 1)]
  refine ⟨h.1.trans (by decide), h.2.1.trans (by decide)⟩

/-! ## Theta-method collocation over one interval

`transcribe` builds, for one collocation interval (from grid point `i`
to `i+1`), the constraint expression from the collocated DAE residual:
derivatives of collocated variables are replaced by backward finite
differences `(value1 - value0) / dt`, the residual is evaluated at the
start point (`dae_residual_0`) and/or at the end point
(`dae_residual_1`), and the emitted expression is `dae_residual_0` for
`theta == 0`, `dae_residual_1` for `theta == 1`, and
`(1 - theta) * dae_residual_0 + theta * dae_residual_1` otherwise. -/

/-- Numeric data of one collocation interval: parameter values, the
collocated free-variable values at the interval start and end, the
constant-input values at start and end, the two collocation times and
the initial time of the horizon. -/
structure IntervalData where
  params : ℕ → ℚ
  states0 : ℕ → ℚ
  states1 : ℕ → ℚ
  constInputs0 : ℕ → ℚ
  constInputs1 : ℕ → ℚ
  time0 : ℚ
  time1 : ℚ
  t0 : ℚ

/-- The step size `dt = collocation_time_1 - collocation_time_0`. -/
def IntervalData.dt (d : IntervalData) : ℚ := d.time1 - d.time0

/-- The backward finite difference
`(collocated_states_1 - collocated_states_0) / dt` substituted for the
collocated derivative symbols. -/
def IntervalData.finiteDifference (d : IntervalData) (i : ℕ) : ℚ :=
  (d.states1 i - d.states0 i) / d.dt

/-- The symbol assignment of the `dae_residual_0` call: free variables
and constant inputs at the interval start, time `collocation_time_0 -
t0`, derivatives as backward finite differences. -/
def IntervalData.startEnv (d : IntervalData) : CVar → ℚ
  | .param i => d.params i
  | .state i => d.states0 i
  | .der i => d.finiteDifference i
  | .constInput i => d.constInputs0 i
  | .time => d.time0 - d.t0

/-- The symbol assignment of the `dae_residual_1` call: free variables
and constant inputs at the interval end, time `collocation_time_1 -
t0`, derivatives as the same backward finite differences. -/
def IntervalData.endEnv (d : IntervalData) : CVar → ℚ
  | .param i => d.params i
  | .state i => d.states1 i
  | .der i => d.finiteDifference i
  | .constInput i => d.constInputs1 i
  | .time => d.time1 - d.t0

/-- The collocation constraint expression appended to `accumulated_Y`
for one residual row, exactly as the `if theta == 0 / elif theta == 1 /
else` cascade of `transcribe` builds it. -/
def collocationConstraint (residual : MXe) (theta : ℚ) (d : IntervalData) : ℚ :=
  if theta = 0 then residual.eval d.startEnv
  else if theta = 1 then residual.eval d.endEnv
  else (1 - theta) * residual.eval d.startEnv + theta * residual.eval d.endEnv

/-- Claim C2: for every collocation interval, the collocation constraint
expression equals the collocated DAE residual evaluated at the
interval end-point variables (with backward-finite-difference
derivatives) when `theta = 1`, at the start-point variables when
`theta = 0`, and the `(1 - theta)`-weighted start evaluation plus the
`theta`-weighted end evaluation for every `theta` strictly between `0`
and `1`. -/
theorem collocation_theta_blending (residual : MXe) (d : IntervalData) (theta : ℚ) :
    (theta = 1 → collocationConstraint residual theta d = residual.eval d.endEnv) ∧
    (theta = 0 → collocationConstraint residual theta d = residual.eval d.startEnv) ∧
    (0 < theta → theta < 1 →
      collocationConstraint residual theta d =
        (1 - theta) * residual.eval d.startEnv + theta * residual.eval d.endEnv) := by
  refine ⟨?_, ?_, ?_⟩
  · rintro rfl
    simp [collocationConstraint]
  · rintro rfl
    simp [collocationConstraint]
  · intro h0 h1
    have hne0 : theta ≠ 0 := ne_of_gt h0
    have hne1 : theta ≠ 1 := ne_of_lt h1
    simp [collocationConstraint, hne0, hne1]

/-- A sample residual row `x0 * time + der(x0) - c0` used to witness the
collocation blending theorem. -/
def sampleResidual : MXe :=
  MXe.sub
    (MXe.add (MXe.mul (MXe.var (CVar.state 0)) (MXe.var CVar.time))
             (MXe.var (CVar.der 0)))
    (MXe.var (CVar.constInput 0))

/-- A sample collocation interval with concrete numbers. -/
def sampleInterval : IntervalData where
  params := fun _ => 3
  states0 := fun _ => 2
  states1 := fun _ => 5
  constInputs0 := fun _ => 1
  constInputs1 := fun _ => 4
  time0 := 10
  time1 := 12
  t0 := 10

/-- Witness for `collocation_theta_blending`: the three cases evaluated
on `sampleResidual` over `sampleInterval` at `theta = 1`, `theta = 0`
and `theta = 1/2`. -/
theorem collocation_theta_blending_witness :
    collocationConstraint sampleResidual 1 sampleInterval =
        sampleResidual.eval sampleInterval.endEnv ∧
    collocationConstraint sampleResidual 0 sampleInterval =
        sampleResidual.eval sampleInterval.startEnv ∧
    collocationConstraint sampleResidual (1/2) sampleInterval =
        (1 - (1/2 : ℚ)) * sampleResidual.eval sampleInterval.startEnv +
          (1/2 : ℚ) * sampleResidual.eval sampleInterval.endEnv := by
  refine ⟨(collocation_theta_blending sampleResidual sampleInterval 1).1 rfl,
          (collocation_theta_blending sampleResidual sampleInterval 0).2.1 rfl,
          (collocation_theta_blending sampleResidual sampleInterval (1/2)).2.2
            (by norm_num) (by norm_num)⟩

/-! ## Decision-vector layout

`discretize_controls` reserves, for every control variable, one slot per
point of that variable time grid (shared across ensemble members).
`discretize_states` reserves, per ensemble member: one slot for the
initial value of an integrated state, `variable_size * n_times` slots
for a collocated state or path variable, `variable_size` slots for an
extra variable, and finally one slot per differentiated state for its
initial-time derivative.  `transcribe` then creates the decision vector
`X = MX.sym(X, control_size + state_size)`. -/

/-- The static data the layout is computed from: the declared variable
names in their declaration order, the per-variable symbol widths of path
and extra variables (`__variable_sizes` records width 1 for every
differentiated and algebraic state), the set of integrated states, the
per-variable time-grid lengths, the global collocation-grid length, the
nominal scales, and the ensemble size. -/
structure LayoutConfig where
  controls : List String
  diffStates : List String
  algStates : List String
  pathVars : List (String × ℕ)
  extraVars : List (String × ℕ)
  integrated : List String
  nTimes : String → ℕ
  nColl : ℕ
  nominal : String → ℚ
  ensembleSize : ℕ

/-- The slot widths reserved by `discretize_states` for the variables of
one ensemble member, in iteration order
`chain(differentiated_states, algebraic_states, path_variable_names)`
followed by the extra variables: an integrated state gets a single slot
(its initial value), any other variable gets `variable_size * n_times`
slots, and an extra variable gets `variable_size` slots. -/
def stateEntryWidths (c : LayoutConfig) : List (String × ℕ) :=
  (((c.diffStates.map (fun v => (v, 1))) ++ (c.algStates.map (fun v => (v, 1)))
      ++ c.pathVars : List (String × ℕ))).map
    (fun e : String × ℕ =>
      (e.1, if e.1 ∈ c.integrated then 1 else e.2 * c.nTimes e.1))
  ++ c.extraVars

/-- The number `len(self.dae_variables[derivatives])`: one derivative symbol per
differentiated state. -/
def derCount (c : LayoutConfig) : ℕ := c.diffStates.length

/-- The quantity `ensemble_member_size` as accumulated by `discretize_states`:
variable slots, then space for the initial derivatives. -/
def memberSize (c : LayoutConfig) : ℕ :=
  (stateEntryWidths c).foldl (fun acc e => acc + e.2) 0 + derCount c

/-- The `count` returned by `discretize_states`:
`self.ensemble_size * ensemble_member_size`. -/
def stateSize (c : LayoutConfig) : ℕ := c.ensembleSize * memberSize c

/-- The `count` returned by `discretize_controls`: one slot per point of
each control own time grid. -/
def controlSize (c : LayoutConfig) : ℕ :=
  c.controls.foldl (fun acc v => acc + c.nTimes v) 0

/-- The length of the decision vector created by `transcribe`
(`X = ca.MX.sym(X, control_size + state_size)`). -/
def totalDecisionLength (c : LayoutConfig) : ℕ := controlSize c + stateSize c

/-- Consecutive slices `(name, start, stop)` assigned from a running
offset, as the index-assignment loops of `discretize_states` and
`discretize_controls` do. -/
def slicesFrom (base : ℕ) : List (String × ℕ) → List (String × ℕ × ℕ)
  | [] => []
  | e :: rest => (e.1, base, base + e.2) :: slicesFrom (base + e.2) rest

/-- The variable slices recorded in `indices[ensemble_member]` by
`discretize_states` (offsets start at
`ensemble_member * ensemble_member_size`; an integrated state scalar
offset is modelled as a width-one slice). -/
def memberSlices (c : LayoutConfig) (m : ℕ) : List (String × ℕ × ℕ) :=
  slicesFrom (m * memberSize c) (stateEntryWidths c)

/-- The claim partition property, following the spec words: the
slices are pairwise disjoint, lie inside the block `[lo, hi)`, and leave
no gaps (every index of the block is covered). -/
def slicesPartition (ss : List (ℕ × ℕ)) (lo hi : ℕ) : Prop :=
  List.Pairwise (fun a b => a.2 ≤ b.1 ∨ b.2 ≤ a.1) ss ∧
  (∀ s ∈ ss, lo ≤ s.1 ∧ s.2 ≤ hi) ∧
  ∀ i < hi, lo ≤ i → ∃ s ∈ ss, s.1 ≤ i ∧ i < s.2

lemma slicesFrom_bounds (ws : List (String × ℕ)) (base : ℕ) :
    ∀ s ∈ slicesFrom base ws,
      base ≤ s.2.1 ∧ s.2.2 ≤ base + (ws.map (fun e => e.2)).sum := by
  induction ws generalizing base with
  | nil => intro s hs; simp [slicesFrom] at hs
  | cons e rest ih =>
      intro s hs
      simp only [slicesFrom, List.mem_cons] at hs
      rcases hs with rfl | hs
      · simp only [List.map_cons, List.sum_cons]
        exact ⟨le_refl _, by omega⟩
      · have h := ih (base + e.2) s hs
        simp only [List.map_cons, List.sum_cons]
        exact ⟨by omega, by omega⟩

lemma slicesFrom_partition (ws : List (String × ℕ)) (base : ℕ) :
    slicesPartition ((slicesFrom base ws).map (fun e => e.2)) base
      (base + (ws.map (fun e => e.2)).sum) := by
  induction ws generalizing base with
  | nil =>
      refine ⟨by simp [slicesFrom], by simp [slicesFrom], ?_⟩
      intro i hi hlo
      simp at hi
      omega
  | cons e rest ih =>
      obtain ⟨ihPw, ihBounds, ihCover⟩ := ih (base + e.2)
      refine ⟨?_, ?_, ?_⟩
      · simp only [slicesFrom, List.map_cons]
        refine List.Pairwise.cons ?_ ihPw
        intro p hp
        obtain ⟨s, hs, rfl⟩ := List.mem_map.mp hp
        have := slicesFrom_bounds rest (base + e.2) s hs
        left
        exact this.1
      · intro s hs
        simp only [slicesFrom, List.map_cons, List.mem_cons] at hs
        rcases hs with rfl | hs
        · simp only [List.map_cons, List.sum_cons]
          exact ⟨le_refl _, by omega⟩
        · have h := ihBounds s hs
          simp only [List.map_cons, List.sum_cons]
          exact ⟨by omega, by omega⟩
      · intro i hi hlo
        simp only [List.map_cons, List.sum_cons] at hi
        by_cases hcase : i < base + e.2
        · refine ⟨(base, base + e.2), ?_, by omega⟩
          simp [slicesFrom]
        · have hlt : i < base + e.2 + (rest.map (fun e => e.2)).sum := by omega
          obtain ⟨s, hs, hss⟩ := ihCover i hlt (by omega)
          refine ⟨s, ?_, hss⟩
          simp only [slicesFrom, List.map_cons]
          exact List.mem_cons_of_mem _ hs

lemma foldl_add_eq_sum (ws : List (String × ℕ)) (a : ℕ) :
    ws.foldl (fun acc e => acc + e.2) a = a + (ws.map (fun e => e.2)).sum := by
  induction ws generalizing a with
  | nil => simp
  | cons e rest ih => simp [List.foldl_cons, ih]; omega

/-- A minimal configuration refuting the claim: one differentiated
state on a two-point grid.  Its member block has three slots (two
collocation slots plus the initial-derivative slot), but only the
two-slot slice of the state is recorded. -/
def cfgC1 : LayoutConfig where
  controls := []
  diffStates := ["x"]
  algStates := []
  pathVars := []
  extraVars := []
  integrated := []
  nTimes := fun _ => 2
  nColl := 2
  nominal := fun _ => 1
  ensembleSize := 1

/-- Counterexample to claim C1 as stated: in `cfgC1` the slices recorded
by `discretize_states` for ensemble member 0 do not partition that
member state block `[0, memberSize)` — the trailing initial-derivative
slot is covered by no recorded slice. -/
theorem state_slices_partition_counterexample :
    ¬ slicesPartition ((memberSlices cfgC1 0).map (fun e => e.2))
        (0 * memberSize cfgC1) (0 * memberSize cfgC1 + memberSize cfgC1) := by
  intro h
  obtain ⟨-, hBounds, hCover⟩ := h
  have h2 : (2 : ℕ) < 0 * memberSize cfgC1 + memberSize cfgC1 := by
    norm_num [memberSize, stateEntryWidths, derCount, cfgC1]
  obtain ⟨s, hs, hcov⟩ := hCover 2 h2 (by omega)
  have : s = (0, 2) := by
    simpa [memberSlices, slicesFrom, memberSize, stateEntryWidths, derCount,
      cfgC1] using hs
  rw [this] at hcov
  omega

/-- Claim C1 (amended): for every ensemble member, the variable slices
recorded by `discretize_states` are pairwise disjoint and exactly
partition that member state block up to, but not including, its
trailing block of one initial-derivative slot per differentiated state;
and the decision-vector length built by `transcribe` equals the
control-block length returned by `discretize_controls` plus
ensemble-size times the per-member state-block length. -/
theorem state_slices_partition (c : LayoutConfig) (m : ℕ)
    (_hm : m < c.ensembleSize) :
    slicesPartition ((memberSlices c m).map (fun e => e.2))
      (m * memberSize c) (m * memberSize c + (memberSize c - derCount c)) ∧
    totalDecisionLength c = controlSize c + c.ensembleSize * memberSize c := by
  constructor
  · have h := slicesFrom_partition (stateEntryWidths c) (m * memberSize c)
    have hsz : memberSize c - derCount c =
        ((stateEntryWidths c).map (fun e => e.2)).sum := by
      simp [memberSize, foldl_add_eq_sum]
    rw [hsz]
    exact h
  · rfl

/-- Witness for `state_slices_partition`: member 0 of a configuration
with one differentiated state, one algebraic state, a width-2 extra
variable and two ensemble members. -/
theorem state_slices_partition_witness :
    slicesPartition
      ((memberSlices
          { controls := ["u"], diffStates := ["x"], algStates := ["w"],
            pathVars := [], extraVars := [("e", 2)], integrated := [],
            nTimes := fun _ => 3, nColl := 3, nominal := fun _ => 1,
            ensembleSize := 2 } 0).map (fun e => e.2))
      (0 * memberSize
          { controls := ["u"], diffStates := ["x"], algStates := ["w"],
            pathVars := [], extraVars := [("e", 2)], integrated := [],
            nTimes := fun _ => 3, nColl := 3, nominal := fun _ => 1,
            ensembleSize := 2 })
      (0 * memberSize
          { controls := ["u"], diffStates := ["x"], algStates := ["w"],
            pathVars := [], extraVars := [("e", 2)], integrated := [],
            nTimes := fun _ => 3, nColl := 3, nominal := fun _ => 1,
            ensembleSize := 2 } +
        (memberSize
          { controls := ["u"], diffStates := ["x"], algStates := ["w"],
            pathVars := [], extraVars := [("e", 2)], integrated := [],
            nTimes := fun _ => 3, nColl := 3, nominal := fun _ => 1,
            ensembleSize := 2 } -
         derCount
          { controls := ["u"], diffStates := ["x"], algStates := ["w"],
            pathVars := [], extraVars := [("e", 2)], integrated := [],
            nTimes := fun _ => 3, nColl := 3, nominal := fun _ => 1,
            ensembleSize := 2 })) := by
  exact (state_slices_partition _ 0 (by norm_num)).1

/-! ## Ensemble-constant parameter classification

`transcribe` classifies each parameter as ensemble-constant (inlined
into all expressions) or per-member with the test

  `if ((len(values) == 1 or (np.all(values) == values[0]))
       and parameter.name() not in dynamic_parameter_names)`

where `values` is the list of the parameter resolved values across
the ensemble members.  Note that `np.all(values)` reduces the list to a
single boolean (are all values non-zero), which is then compared
numerically against `values[0]` (`True == 1.0`, `False == 0.0`). -/

/-- The reduction `np.all(values)` on a list of floats: true iff every element is
non-zero. -/
def npAll (values : List ℚ) : Bool :=
  values.all (fun v => v ≠ 0)

/-- The numeric value numpy gives a boolean when comparing it against a
float. -/
def boolToQ (b : Bool) : ℚ := if b then 1 else 0

/-- The classification test of `transcribe`, literally:
`(len(values) == 1 or (np.all(values) == values[0])) and not dynamic`. -/
def paramTreatedConstant (values : List ℚ) (isDynamic : Bool) : Bool :=
  (values.length = 1 || boolToQ (npAll values) = values.headI) && !isDynamic

/-- The classification the claim (and the code own comment "Replace
parameters which are constant across the entire ensemble") describes:
the parameter resolved value is identical across all ensemble members
and the parameter is not dynamic. -/
def paramConstantSpec (values : List ℚ) (isDynamic : Bool) : Bool :=
  values.all (fun v => v = values.headI) && !isDynamic

/-- Claim C4 is refuted by the code: a non-dynamic parameter whose
resolved value is `2` in both of two ensemble members is identical
across the ensemble, yet the code test
`np.all(values) == values[0]` evaluates to `(True == 2.0) = False`, so
the parameter is not treated as a compile-time constant; conversely a
non-dynamic parameter with differing values `1` and `2` is treated as
constant (`(True == 1.0) = True`) and member 1 value is discarded. -/
theorem param_classification_code_bug :
    paramTreatedConstant [2, 2] false = false ∧
    paramConstantSpec [2, 2] false = true ∧
    paramTreatedConstant [1, 2] false = true ∧
    paramConstantSpec [1, 2] false = false := by
  decide

/-! ## Ensemble objective aggregation

For each ensemble member, `transcribe` evaluates
`f_member = self.objective(ensemble_member)` (an empty objective counts
as `0`), adds `initial_path_objective[0] + ca.sum1(discretized_path_objective)`
when a path objective is present, and appends
`self.ensemble_member_probability(ensemble_member) * f_member` to the
list `f`; the NLP objective is `ca.sum1(ca.vertcat(*f))`. -/

/-- The objective data of one ensemble member: its probability weight,
its `objective()` value (`none` models an empty, zero-size objective),
the path objective evaluated at the initial time, and the accumulated
path-objective values over the collocation intervals. -/
structure MemberObjectiveData where
  probability : ℚ
  objectiveVal : Option ℚ
  initialPathObjective : ℚ
  discretizedPathObjective : List ℚ

/-- The value `f_member` for one ensemble member: the member objective (zero if
empty) plus, when a path objective is present, its initial value and its
sum over the collocation intervals. -/
def memberObjectiveTotal (hasPathObjective : Bool) (m : MemberObjectiveData) : ℚ :=
  (match m.objectiveVal with
    | none => 0
    | some v => v) +
  (if hasPathObjective then
      m.initialPathObjective + m.discretizedPathObjective.sum
    else 0)

/-- The list `f` built by the per-member loop of `transcribe`: each
iteration appends `probability * f_member`. -/
def transcribeObjectiveList (hasPathObjective : Bool)
    (members : List MemberObjectiveData) : List ℚ :=
  members.foldl
    (fun acc m => acc ++ [m.probability * memberObjectiveTotal hasPathObjective m])
    []

/-- The NLP objective `ca.sum1(ca.vertcat(*f))`. -/
def nlpObjective (hasPathObjective : Bool)
    (members : List MemberObjectiveData) : ℚ :=
  (transcribeObjectiveList hasPathObjective members).sum

lemma transcribeObjectiveList_eq (hasPathObjective : Bool)
    (members : List MemberObjectiveData) :
    transcribeObjectiveList hasPathObjective members =
      members.map
        (fun m => m.probability * memberObjectiveTotal hasPathObjective m) := by
  have haux : ∀ (l : List MemberObjectiveData) (acc : List ℚ),
      l.foldl
        (fun acc m =>
          acc ++ [m.probability * memberObjectiveTotal hasPathObjective m])
        acc =
      acc ++ l.map
        (fun m => m.probability * memberObjectiveTotal hasPathObjective m) := by
    intro l
    induction l with
    | nil => intro acc; simp
    | cons m rest ih => intro acc; simp [List.foldl_cons, ih]
  simpa using haux members []

/-- Claim C5: the objective of the assembled NLP equals the sum over all
ensemble members of the member probability weight times the member
individually evaluated objective, the latter including its initial and
accumulated path-objective terms. -/
theorem nlp_objective_weighted_sum (hasPathObjective : Bool)
    (members : List MemberObjectiveData) :
    nlpObjective hasPathObjective members =
      (members.map
        (fun m => m.probability * memberObjectiveTotal hasPathObjective m)).sum := by
  rw [nlpObjective, transcribeObjectiveList_eq]

/-! ## Delayed-feedback resolution

For each delayed-feedback triple, `transcribe` evaluates the delay
duration at every collocation time (a vectorized call of the mapped
delay function), then runs

  `assert np.all(np.isfinite(delay))`

and, when the assertion passes, appends the delay-matching constraint
vector `(x_in - x_out_delayed) / nominal` — one row per collocation
time — to `g` with equality bounds `lbg = ubg = 0`. -/

/-- One delayed-feedback triple after the vectorized delay evaluation:
the delay duration value at each collocation time. -/
structure DelayTriple where
  delayValues : List Fp
deriving DecidableEq

/-- The per-triple loop of `transcribe`: abort on the first triple with
a non-finite delay value, otherwise emit one block of
`n_collocation_times` equality rows (`lbg = ubg = 0`) per triple. -/
def processDelays (n : ℕ) : List DelayTriple → Except Unit (List (List (ℚ × ℚ)))
  | [] => .ok []
  | t :: ts =>
      if t.delayValues.all Fp.isFinite then
        match processDelays n ts with
        | .ok blocks => .ok (List.replicate n ((0 : ℚ), (0 : ℚ)) :: blocks)
        | .error e => .error e
      else .error ()

/-- Claim C6: if any delayed-feedback delay duration does not evaluate
to a finite number at some collocation time, the delayed-feedback loop
of `transcribe` aborts with an assertion error; when all delay durations
are finite, it emits exactly one delay-matching equality constraint
(`lbg = ubg = 0`) per collocation time per delayed-feedback
expression. -/
theorem delayed_feedback_finiteness (n : ℕ) (triples : List DelayTriple) :
    ((∃ t ∈ triples, ∃ v ∈ t.delayValues, v.isFinite = false) →
      processDelays n triples = .error ()) ∧
    ((∀ t ∈ triples, ∀ v ∈ t.delayValues, v.isFinite = true) →
      processDelays n triples =
        .ok (List.replicate triples.length
              (List.replicate n ((0 : ℚ), (0 : ℚ))))) := by
  constructor
  · induction triples with
    | nil =>
        intro h
        obtain ⟨t, ht, _⟩ := h
        simp at ht
    | cons t0 ts ih =>
        intro h
        by_cases hall : t0.delayValues.all Fp.isFinite
        · obtain ⟨t, ht, v, hv, hfin⟩ := h
          rcases List.mem_cons.mp ht with heq | hmem
          · exfalso
            have hfin2 := List.all_eq_true.mp hall v (heq ▸ hv)
            rw [hfin] at hfin2
            exact Bool.false_ne_true hfin2
          · have herr := ih ⟨t, hmem, v, hv, hfin⟩
            simp [processDelays, hall, herr]
        · simp [processDelays, hall]
  · intro h
    induction triples with
    | nil => simp [processDelays]
    | cons t0 ts ih =>
        have hall : t0.delayValues.all Fp.isFinite = true := by
          rw [List.all_eq_true]
          intro v hv
          exact h t0 (List.mem_cons_self _ _) v hv
        have hrest := ih (fun t ht v hv => h t (List.mem_cons_of_mem _ ht) v hv)
        simp [processDelays, hall, hrest, List.replicate_succ]

/-- Witness for `delayed_feedback_finiteness`: a triple with a `nan`
delay aborts, and two triples with finite delays over three collocation
times yield two blocks of three equality rows. -/
theorem delayed_feedback_finiteness_witness :
    processDelays 3 [⟨[Fp.fin 2, Fp.nan]⟩] = .error () ∧
    processDelays 3 [⟨[Fp.fin 2, Fp.fin 1, Fp.fin 2]⟩, ⟨[Fp.fin 0, Fp.fin 0, Fp.fin 1]⟩] =
      .ok (List.replicate 2 (List.replicate 3 ((0 : ℚ), (0 : ℚ)))) := by
  constructor
  · exact (delayed_feedback_finiteness 3 [⟨[Fp.fin 2, Fp.nan]⟩]).1
      ⟨⟨[Fp.fin 2, Fp.nan]⟩, by decide, Fp.nan, by decide, by decide⟩
  · exact (delayed_feedback_finiteness 3
      [⟨[Fp.fin 2, Fp.fin 1, Fp.fin 2]⟩, ⟨[Fp.fin 0, Fp.fin 0, Fp.fin 1]⟩]).2
      (by decide)

/-! ## Width checks on integrated states and controls

Before the layout is built, `transcribe` runs

  `for variable in self.integrated_states:
       if self.__variable_sizes.get(variable, 1) > 1:
           raise NotImplementedError(...)`

and the same loop over `self.controls`.  The cache
`self.__variable_sizes` is populated just above with width `1` for every
differentiated and algebraic state and with the declared symbol widths
of path and extra variables — control widths are never recorded, so the
`.get(variable, 1)` lookup yields `1` for every control regardless of
the control symbol true width. -/

/-- Declared variables with their true symbol widths (`size1()` of the
`MX` symbols). -/
structure WidthConfig where
  diffStates : List String
  algStates : List String
  pathVars : List (String × ℕ)
  extraVars : List (String × ℕ)
  integratedStates : List String
  controls : List (String × ℕ)

/-- The assignments made to `self.__variable_sizes`, in program order
(later assignments override earlier ones): width 1 for differentiated
and algebraic states, then the declared widths of path variables and
extra variables. -/
def variableSizesAssignments (c : WidthConfig) : List (String × ℕ) :=
  (c.diffStates.map (fun v => (v, 1))) ++ (c.algStates.map (fun v => (v, 1)))
    ++ c.pathVars ++ c.extraVars

/-- The lookup of the variable-sizes cache with default 1: the last assignment wins,
default 1. -/
def variableSizesGet (c : WidthConfig) (v : String) : ℕ :=
  match (variableSizesAssignments c).reverse.find? (fun e => e.1 = v) with
  | some e => e.2
  | none => 1

/-- The two pre-layout width-check loops of `transcribe`, in order:
integrated states first, then controls; the first offending variable
raises `NotImplementedError` naming it. -/
def widthChecks (c : WidthConfig) : Except String Unit :=
  match c.integratedStates.find? (fun v => 1 < variableSizesGet c v) with
  | some v => .error ("Vector symbol not supported for integrated state " ++ v)
  | none =>
      match c.controls.find? (fun e => 1 < variableSizesGet c e.1) with
      | some e => .error ("Vector symbol not supported for control state " ++ e.1)
      | none => .ok ()

/-- The configuration exposing the bug: a single control variable `u`
whose `MX` symbol has width 2. -/
def cfgWidthBug : WidthConfig where
  diffStates := ["x"]
  algStates := []
  pathVars := []
  extraVars := []
  integratedStates := []
  controls := [("u", 2)]

/-- Claim C7 is violated by the code: the control `u` of `cfgWidthBug`
has symbol width 2, yet the width checks pass (`__variable_sizes` never
records control widths, so `.get` falls back to the default 1) and
`transcribe` proceeds to build the layout instead of raising a
not-implemented error naming `u`. -/
theorem width_check_misses_vector_control :
    widthChecks cfgWidthBug = .ok () ∧
    cfgWidthBug.controls.any (fun e => 1 < e.2) = true := by
  exact ⟨by rfl, by decide⟩

/-! ## Interpolation

`self.interpolate` (of the base `OptimizationProblem` class, outside the
transcription module) resamples a timeseries onto query times. -/

/-- Piecewise-linear interpolation on the zipped `(time, value)` knots,
assuming the query time is within range. -/
def interpSeg : ℚ → List (ℚ × ℚ) → ℚ
  | _, [] => 0
  | _, [p] => p.2
  | t, p :: q :: rest =>
      if t ≤ q.1 then p.2 + (q.2 - p.2) * (t - p.1) / (q.1 - p.1)
      else interpSeg t (q :: rest)

/-- Modelled from the spec: `self.interpolate(t, ts, fs, f_left,
f_right, mode)` of the base optimization-problem class is not part of
the transcription module sources; per the spec, a timeseries
"supports interpolation with configurable out-of-range fill values and
a selectable method (linear is the default)".  Queries left of the first
knot yield `f_left`, right of the last knot `f_right`, and in-range
queries are linearly interpolated. -/
def interpolateFp (t : ℚ) (ts vs : List ℚ) (fLeft fRight : Fp) : Fp :=
  match ts with
  | [] => Fp.nan
  | t0 :: _ =>
      if t < t0 then fLeft
      else if ts.getLastD t0 < t then fRight
      else Fp.fin (interpSeg t (ts.zip vs))

/-- Modelled from the spec: the finite-fill variant used for seed
values (`self.interpolate(times, seed_k.times, seed_k.values, 0, 0,
interpolation_method)` always yields finite numbers). -/
def interpolateQ (t : ℚ) (ts vs : List ℚ) (fLeft fRight : ℚ) : ℚ :=
  match interpolateFp t ts vs (Fp.fin fLeft) (Fp.fin fRight) with
  | Fp.fin q => q
  | _ => 0

/-- A timeseries: time stamps with their values. -/
structure TimeseriesQ where
  times : List ℚ
  values : List ℚ
deriving DecidableEq

/-! ## Control discretization: bounds and seed application

`discretize_controls` walks the control variables; for each control it
looks up `bounds[variable]` and — only inside the `else:` branch of that
lookup, i.e. only when a bounds entry exists — applies the lower and
upper bound (timeseries bounds interpolated with `-inf` / `+inf` fill,
scalar bounds broadcast, both divided by the variable nominal) and
then, in a nested `try`, looks up `seed[variable]` and writes the seed
interpolated with fill `0` and divided by the nominal into the `x0`
slice. -/

/-- One bound end as supplied by `bounds()`: a scalar or a timeseries. -/
inductive BoundVal where
  | const : ℚ → BoundVal
  | series : TimeseriesQ → BoundVal
deriving DecidableEq

/-- The data `discretize_controls` reads for the control variables. -/
structure ControlDiscretization where
  times : String → List ℚ
  bounds : String → Option (Option BoundVal × Option BoundVal)
  seed : String → Option TimeseriesQ
  nominal : String → ℚ

/-- The `x0` slice written for one control variable, exactly as the
code nested `try/except` structure produces it: the slice keeps its
initial zeros unless a bounds entry exists, in which case a supplied
seed is interpolated onto the control own time grid with fill `0` and
descaled by the nominal. -/
def controlX0Slice (c : ControlDiscretization) (v : String) : List ℚ :=
  match c.bounds v with
  | none => List.replicate (c.times v).length 0
  | some _ =>
      match c.seed v with
      | none => List.replicate (c.times v).length 0
      | some s =>
          (c.times v).map
            (fun t => interpolateQ t s.times s.values 0 0 / c.nominal v)

/-- The `lbx` slice written for one control variable: `-inf` by default;
with a bounds entry whose lower end is a timeseries, interpolation onto
the control grid with `-inf` fill, descaled; a scalar lower bound is
broadcast descaled. -/
def controlLbxSlice (c : ControlDiscretization) (v : String) : List Fp :=
  match c.bounds v with
  | none => List.replicate (c.times v).length Fp.ninf
  | some b =>
      match b.1 with
      | none => List.replicate (c.times v).length Fp.ninf
      | some (.const q) =>
          List.replicate (c.times v).length (Fp.fin (q / c.nominal v))
      | some (.series s) =>
          (c.times v).map
            (fun t =>
              (interpolateFp t s.times s.values Fp.ninf Fp.ninf).divQ
                (c.nominal v))

/-- The `ubx` slice written for one control variable (symmetric to
`controlLbxSlice` with `+inf` fill). -/
def controlUbxSlice (c : ControlDiscretization) (v : String) : List Fp :=
  match c.bounds v with
  | none => List.replicate (c.times v).length Fp.pinf
  | some b =>
      match b.2 with
      | none => List.replicate (c.times v).length Fp.pinf
      | some (.const q) =>
          List.replicate (c.times v).length (Fp.fin (q / c.nominal v))
      | some (.series s) =>
          (c.times v).map
            (fun t =>
              (interpolateFp t s.times s.values Fp.pinf Fp.pinf).divQ
                (c.nominal v))

/-- The `x0` slice the claim describes: whenever a seed timeseries is
supplied, the seed interpolated onto the control own grid with fill
`0`, descaled by the nominal — independent of whether a bounds entry
exists. -/
def claimX0Slice (c : ControlDiscretization) (v : String) : List ℚ :=
  match c.seed v with
  | none => List.replicate (c.times v).length 0
  | some s =>
      (c.times v).map
        (fun t => interpolateQ t s.times s.values 0 0 / c.nominal v)

/-- A control with a seed but no bounds entry. -/
def cfgSeedNoBounds : ControlDiscretization where
  times := fun _ => [0, 1]
  bounds := fun _ => none
  seed := fun _ => some ⟨[0, 1], [5, 5]⟩
  nominal := fun _ => 1

/-- Counterexample to claim C8 as stated: the control `u` of
`cfgSeedNoBounds` has a seed timeseries with value `5`, but because its
bounds lookup raises `KeyError`, the seed-writing block (nested in the
bounds `else:` clause) never runs and the `x0` slice stays `0`. -/
theorem control_seed_counterexample :
    controlX0Slice cfgSeedNoBounds "u" = [0, 0] ∧
    claimX0Slice cfgSeedNoBounds "u" = [5, 5] ∧
    controlX0Slice cfgSeedNoBounds "u" ≠ claimX0Slice cfgSeedNoBounds "u" := by
  have h1 : controlX0Slice cfgSeedNoBounds "u" = [0, 0] := by
    norm_num [controlX0Slice, cfgSeedNoBounds, List.replicate]
  have h2 : claimX0Slice cfgSeedNoBounds "u" = [5, 5] := by
    norm_num [claimX0Slice, cfgSeedNoBounds, interpolateQ, interpolateFp,
      interpSeg, List.getLastD]
  refine ⟨h1, h2, ?_⟩
  rw [h1, h2]
  intro h
  simpa using congrArg (fun l => l.headI) h

/-- Claim C8 (amended): for every control variable that has a bounds
entry, `discretize_controls` writes a supplied seed interpolated onto
the control own time grid with fill `0` and descaled by the nominal
into the `x0` slice (controls without a bounds entry keep the zero
seed even when a seed timeseries is supplied); and for every control
variable with supplied bounds the bounds are interpolated with `-inf` /
`+inf` fill (timeseries bounds) or broadcast (scalar bounds) and written
descaled into the `lbx` / `ubx` slices. -/
theorem control_bounds_seed_application (c : ControlDiscretization)
    (v : String) (b : Option BoundVal × Option BoundVal)
    (hb : c.bounds v = some b) :
    controlX0Slice c v = claimX0Slice c v ∧
    controlLbxSlice c v =
      (match b.1 with
        | none => List.replicate (c.times v).length Fp.ninf
        | some (.const q) =>
            List.replicate (c.times v).length (Fp.fin (q / c.nominal v))
        | some (.series s) =>
            (c.times v).map
              (fun t =>
                (interpolateFp t s.times s.values Fp.ninf Fp.ninf).divQ
                  (c.nominal v))) ∧
    controlUbxSlice c v =
      (match b.2 with
        | none => List.replicate (c.times v).length Fp.pinf
        | some (.const q) =>
            List.replicate (c.times v).length (Fp.fin (q / c.nominal v))
        | some (.series s) =>
            (c.times v).map
              (fun t =>
                (interpolateFp t s.times s.values Fp.pinf Fp.pinf).divQ
                  (c.nominal v))) := by
  refine ⟨?_, ?_, ?_⟩
  · rw [controlX0Slice, claimX0Slice, hb]
  · rw [controlLbxSlice, hb]
  · rw [controlUbxSlice, hb]

/-- A control with a bounds entry (timeseries lower bound, scalar upper
bound) and a seed. -/
def cfgSeedWithBounds : ControlDiscretization where
  times := fun _ => [0, 1]
  bounds := fun _ => some (some (.series ⟨[0, 1], [-4, -2]⟩), some (.const 6))
  seed := fun _ => some ⟨[0, 1], [5, 3]⟩
  nominal := fun _ => 2

/-- Witness for `control_bounds_seed_application` on
`cfgSeedWithBounds`. -/
theorem control_bounds_seed_application_witness :
    controlX0Slice cfgSeedWithBounds "u" = claimX0Slice cfgSeedWithBounds "u" ∧
    controlLbxSlice cfgSeedWithBounds "u" =
      [Fp.fin (-2), Fp.fin (-1)] ∧
    controlUbxSlice cfgSeedWithBounds "u" = [Fp.fin 3, Fp.fin 3] := by
  have h := control_bounds_seed_application cfgSeedWithBounds "u"
    (some (.series ⟨[0, 1], [-4, -2]⟩), some (.const 6)) rfl
  refine ⟨h.1, h.2.1.trans ?_, h.2.2.trans ?_⟩
  · norm_num [cfgSeedWithBounds, interpolateFp, interpSeg, List.getLastD,
      Fp.divQ]
  · norm_num [cfgSeedWithBounds, List.replicate]

/-! ## Result extraction

`extract_controls` walks `self.controls` with a running offset starting
at 0 and returns, for each control, `variable_nominal(variable) *
X[offset : offset + n_times]`.  `extract_states` first returns, for
each integrated state, `variable_nominal(variable) *` the replayed
integrator outputs (`integrators_output`, recomputed from the cached
`integrators_mx`), then starts an offset at
`control_size + ensemble_member * ensemble_member_size` and walks the
differentiated and algebraic states — skipping one slot (`offset += 1`)
for an integrated state, returning the `n_times`-slot slice otherwise —
then the path variables (`n_collocation_times * variable_size` slots
each) and the extra variables (`variable_size` slots each), returning
each slice multiplied by the variable nominal. -/

/-- The common slice-walk of `extract_controls` / `extract_states`: for
each `(name, width)` entry, return the next `width` entries of the
solver output multiplied by the variable nominal, and advance the
offset. -/
def extractWalk (nom : String → ℚ) (X : ℕ → ℚ) :
    List (String × ℕ) → ℕ → List (String × List ℚ)
  | [], _ => []
  | e :: rest, offset =>
      (e.1, (List.range e.2).map (fun k => nom e.1 * X (offset + k)))
        :: extractWalk nom X rest (offset + e.2)

/-- The walk of `extract_controls`. -/
def extractControls (c : LayoutConfig) (X : ℕ → ℚ) : List (String × List ℚ) :=
  extractWalk c.nominal X (c.controls.map (fun v => (v, c.nTimes v))) 0

/-- The walk of `extract_states` over
`chain(differentiated_states, algebraic_states)`: an integrated state
contributes no result here and advances the offset by one slot (its
initial-value slot), any other state returns its `n_times`-slot slice
multiplied by the variable nominal. -/
def extractStateWalk (c : LayoutConfig) (X : ℕ → ℚ) :
    List String → ℕ → List (String × List ℚ)
  | [], _ => []
  | v :: rest, offset =>
      if v ∈ c.integrated then extractStateWalk c X rest (offset + 1)
      else
        (v, (List.range (c.nTimes v)).map (fun k => c.nominal v * X (offset + k)))
          :: extractStateWalk c X rest (offset + c.nTimes v)

/-- The offsets consumed by the differentiated/algebraic walk of
`extract_states`: one slot per integrated state, `n_times` slots
otherwise. -/
def chainSize (c : LayoutConfig) : ℕ :=
  ((c.diffStates ++ c.algStates).map
    (fun v => if v ∈ c.integrated then 1 else c.nTimes v)).sum

/-- The result of `extract_states` for one ensemble member (its
decision-variable entries; the constant-input and initial-derivative
entries it additionally returns are keyed by non-layout names): first
the integrated states as nominal times the replayed integrator outputs
`integ`, then the non-integrated differentiated/algebraic slices, then
the path-variable and extra-variable slices. -/
def extractStates (c : LayoutConfig) (m : ℕ) (X : ℕ → ℚ)
    (integ : String → List ℚ) : List (String × List ℚ) :=
  (c.integrated.map (fun v => (v, (integ v).map (fun q => c.nominal v * q))))
  ++ extractStateWalk c X (c.diffStates ++ c.algStates)
      (controlSize c + m * memberSize c)
  ++ extractWalk c.nominal X
      ((c.pathVars.map (fun e : String × ℕ => (e.1, e.2 * c.nColl)))
        ++ c.extraVars)
      (controlSize c + m * memberSize c + chainSize c)

/-- The control slices recorded by `discretize_controls` (identical for
every ensemble member). -/
def controlSlices (c : LayoutConfig) : List (String × ℕ × ℕ) :=
  slicesFrom 0 (c.controls.map (fun v => (v, c.nTimes v)))

/-- The merge step of `transcribe`: state slices are shifted by
`control_size`. -/
def shiftSlices (n : ℕ) (ss : List (String × ℕ × ℕ)) :
    List (String × ℕ × ℕ) :=
  ss.map (fun e => (e.1, e.2.1 + n, e.2.2 + n))

/-- The merged per-member index map: control slices plus the member
state slices shifted by the control-block length. -/
def mergedIndices (c : LayoutConfig) (m : ℕ) : List (String × ℕ × ℕ) :=
  controlSlices c ++ shiftSlices (controlSize c) (memberSlices c m)

/-- Reading one slice of the solver output and rescaling by the
variable nominal. -/
def sliceResult (nom : String → ℚ) (X : ℕ → ℚ) (e : String × ℕ × ℕ) :
    String × List ℚ :=
  (e.1, (List.range (e.2.2 - e.2.1)).map (fun k => nom e.1 * X (e.2.1 + k)))

lemma extractWalk_eq_slices (nom : String → ℚ) (X : ℕ → ℚ)
    (ws : List (String × ℕ)) (offset : ℕ) :
    extractWalk nom X ws offset =
      (slicesFrom offset ws).map (sliceResult nom X) := by
  induction ws generalizing offset with
  | nil => simp [extractWalk, slicesFrom]
  | cons e rest ih =>
      simp only [extractWalk, slicesFrom, List.map_cons, ih, sliceResult]
      rw [show offset + e.2 - offset = e.2 by omega]

lemma slicesFrom_add (a b : ℕ) (ws : List (String × ℕ)) :
    slicesFrom (b + a) ws = shiftSlices a (slicesFrom b ws) := by
  induction ws generalizing b with
  | nil => simp [slicesFrom, shiftSlices]
  | cons e rest ih =>
      simp only [slicesFrom, shiftSlices, List.map_cons]
      rw [show b + a + e.2 = b + e.2 + a by omega, ih (b + e.2)]
      simp [shiftSlices]

lemma slicesFrom_append (ws1 ws2 : List (String × ℕ)) (base : ℕ) :
    slicesFrom base (ws1 ++ ws2) =
      slicesFrom base ws1 ++
        slicesFrom (base + (ws1.map (fun e => e.2)).sum) ws2 := by
  induction ws1 generalizing base with
  | nil => simp [slicesFrom]
  | cons e rest ih =>
      have hstep : slicesFrom base ((e :: rest) ++ ws2) =
          (e.1, base, base + e.2) :: slicesFrom (base + e.2) (rest ++ ws2) :=
        rfl
      rw [hstep, ih (base + e.2)]
      simp only [slicesFrom, List.map_cons, List.sum_cons, List.cons_append]
      rw [show base + e.2 + (rest.map (fun e => e.2)).sum =
        base + (e.2 + (rest.map (fun e => e.2)).sum) by omega]

lemma slicesFrom_fst_mem (ws : List (String × ℕ)) (base : ℕ) :
    ∀ s ∈ slicesFrom base ws, s.1 ∈ ws.map Prod.fst := by
  induction ws generalizing base with
  | nil => intro s hs; simp [slicesFrom] at hs
  | cons e rest ih =>
      intro s hs
      simp only [slicesFrom, List.mem_cons] at hs
      rcases hs with rfl | hs
      · simp
      · simp only [List.map_cons, List.mem_cons]
        exact Or.inr (ih (base + e.2) s hs)

lemma filter_slices_keep (c : LayoutConfig) (ws : List (String × ℕ))
    (base : ℕ) (h : ∀ n ∈ ws.map Prod.fst, n ∉ c.integrated) :
    (slicesFrom base ws).filter (fun e => decide (e.1 ∉ c.integrated)) =
      slicesFrom base ws := by
  apply List.filter_eq_self.mpr
  intro s hs
  simpa using h s.1 (slicesFrom_fst_mem ws base s hs)

lemma extractStateWalk_eq (c : LayoutConfig) (X : ℕ → ℚ)
    (vs : List String) (offset : ℕ) :
    extractStateWalk c X vs offset =
      ((slicesFrom offset
          (vs.map
            (fun v => (v, if v ∈ c.integrated then 1 else c.nTimes v)))).filter
        (fun e => decide (e.1 ∉ c.integrated))).map
        (sliceResult c.nominal X) := by
  induction vs generalizing offset with
  | nil => simp [extractStateWalk, slicesFrom]
  | cons v rest ih =>
      by_cases hv : v ∈ c.integrated
      · simp only [extractStateWalk, List.map_cons, slicesFrom, hv, if_true,
          List.filter_cons]
        simp only [hv, not_true_eq_false, decide_False, if_false]
        exact ih (offset + 1)
      · simp only [extractStateWalk, List.map_cons, slicesFrom, hv, if_false,
          List.filter_cons]
        simp only [hv, not_false_eq_true, decide_True, if_true, List.map_cons]
        rw [ih (offset + c.nTimes v)]
        simp only [sliceResult]
        rw [show offset + c.nTimes v - offset = c.nTimes v by omega]

lemma stateEntryWidths_decomp (c : LayoutConfig) :
    stateEntryWidths c =
      ((c.diffStates ++ c.algStates).map
        (fun v => (v, if v ∈ c.integrated then 1 else c.nTimes v)))
      ++ ((c.pathVars.map (fun e : String × ℕ =>
            (e.1, if e.1 ∈ c.integrated then 1 else e.2 * c.nTimes e.1)))
        ++ c.extraVars) := by
  rw [stateEntryWidths]
  simp only [List.map_append, List.map_map, List.append_assoc]
  congr 1
  · apply List.map_congr_left
    intro v _
    simp [Function.comp]
  congr 1
  apply List.map_congr_left
  intro v _
  simp [Function.comp]

/-- The entries of the merged index map whose value is a slice (the
integrated states are recorded as scalar initial-value offsets and are
not extracted from the decision vector). -/
def mergedSliceIndices (c : LayoutConfig) (m : ℕ) : List (String × ℕ × ℕ) :=
  controlSlices c ++
    (shiftSlices (controlSize c) (memberSlices c m)).filter
      (fun e => decide (e.1 ∉ c.integrated))

/-- A layout with one integrated differentiated state `x` on a
two-point grid. -/
def cfgIntegratedExtract : LayoutConfig where
  controls := []
  diffStates := ["x"]
  algStates := []
  pathVars := []
  extraVars := []
  integrated := ["x"]
  nTimes := fun _ => 2
  nColl := 2
  nominal := fun _ => 1
  ensembleSize := 1

/-- Counterexample to claim C9 as stated: in `cfgIntegratedExtract`
with the solved vector constantly `0` and replayed integrator output
`[7]`, `extract_states` returns `[7]` for the integrated state `x`
(nominal times the integrator replay), while the slice of the solved
vector located via the layout index map (the single initial-value
slot of `x`) times the nominal is `[0]`. -/
theorem extract_states_integrated_counterexample :
    extractStates cfgIntegratedExtract 0 (fun _ => 0) (fun _ => [7]) =
      [("x", [(7 : ℚ)])] ∧
    (mergedIndices cfgIntegratedExtract 0).map
      (sliceResult cfgIntegratedExtract.nominal (fun _ => 0)) =
      [("x", [(0 : ℚ)])] ∧
    ([("x", [(7 : ℚ)])] : List (String × List ℚ)) ≠ [("x", [(0 : ℚ)])] := by
  refine ⟨?_, ?_, ?_⟩
  · norm_num [extractStates, cfgIntegratedExtract, extractStateWalk,
      extractWalk, chainSize, controlSize, memberSize, stateEntryWidths,
      derCount]
  · norm_num [mergedIndices, cfgIntegratedExtract, controlSlices, shiftSlices,
      memberSlices, slicesFrom, sliceResult, controlSize, memberSize,
      stateEntryWidths, derCount]
  · intro h
    have h2 := congrArg (fun l : List (String × List ℚ) => l.headI.2.headI) h
    norm_num at h2

/-- Claim C9 (amended): for every solved flat vector, `extract_controls`
and `extract_states` return, for each control, non-integrated state,
path variable and extra variable, exactly the variable slice of the
vector (located via the layout index map) multiplied by the variable
nominal scale, while each integrated state is instead returned as its
nominal times the replayed integrator outputs rather than a slice of
the vector; hence writing nominal-descaled physical values into the
slices given by the index map and then extracting reproduces the
original physical values for every slice-mapped variable.  (Path and
extra variables are not declared integrated — `integrated_states` is a
list of states — and path-variable grids equal the global collocation
grid, which the vectorized path-variable reshape in `transcribe`
requires.) -/
theorem extraction_slices_round_trip (c : LayoutConfig) (m : ℕ)
    (X : ℕ → ℚ) (integ : String → List ℚ)
    (hpath : ∀ e ∈ c.pathVars, c.nTimes e.1 = c.nColl)
    (hpathNotInt : ∀ e ∈ c.pathVars, e.1 ∉ c.integrated)
    (hextraNotInt : ∀ e ∈ c.extraVars, e.1 ∉ c.integrated) :
    extractControls c X = (controlSlices c).map (sliceResult c.nominal X) ∧
    extractStates c m X integ =
      (c.integrated.map
        (fun v => (v, (integ v).map (fun q => c.nominal v * q))))
      ++ ((shiftSlices (controlSize c) (memberSlices c m)).filter
            (fun e => decide (e.1 ∉ c.integrated))).map
          (sliceResult c.nominal X) ∧
    (∀ e ∈ mergedSliceIndices c m, ∀ vals : List ℚ,
      vals.length = e.2.2 - e.2.1 →
      c.nominal e.1 ≠ 0 →
      (∀ k, k < e.2.2 - e.2.1 → X (e.2.1 + k) = vals.getD k 0 / c.nominal e.1) →
      (sliceResult c.nominal X e).2 = vals) := by
  refine ⟨?_, ?_, ?_⟩
  · rw [extractControls, extractWalk_eq_slices, controlSlices]
  · have hshift : shiftSlices (controlSize c) (memberSlices c m) =
        slicesFrom (controlSize c + m * memberSize c) (stateEntryWidths c) := by
      rw [memberSlices, ← slicesFrom_add,
        Nat.add_comm (m * memberSize c) (controlSize c)]
    have hnames : ∀ n ∈ ((c.pathVars.map (fun e : String × ℕ =>
          (e.1, if e.1 ∈ c.integrated then 1 else e.2 * c.nTimes e.1)))
          ++ c.extraVars).map Prod.fst, n ∉ c.integrated := by
      intro n hn
      simp only [List.map_append, List.map_map, List.mem_append] at hn
      rcases hn with hn | hn
      · obtain ⟨e, he, rfl⟩ := List.mem_map.mp hn
        exact hpathNotInt e he
      · obtain ⟨e, he, rfl⟩ := List.mem_map.mp hn
        exact hextraNotInt e he
    have hwidths : (c.pathVars.map (fun e : String × ℕ =>
          (e.1, if e.1 ∈ c.integrated then 1 else e.2 * c.nTimes e.1))) =
        (c.pathVars.map (fun e : String × ℕ => (e.1, e.2 * c.nColl))) := by
      apply List.map_congr_left
      intro e he
      simp [hpathNotInt e he, hpath e he]
    have hsum : ((((c.diffStates ++ c.algStates).map
        (fun v => (v, if v ∈ c.integrated then 1 else c.nTimes v))).map
          (fun e => e.2)).sum) = chainSize c := by
      rw [chainSize, List.map_map]
      rfl
    rw [extractStates, hshift, stateEntryWidths_decomp c, slicesFrom_append,
      List.filter_append, List.map_append, List.append_assoc,
      extractStateWalk_eq c X (c.diffStates ++ c.algStates)
        (controlSize c + m * memberSize c),
      extractWalk_eq_slices c.nominal X
        ((c.pathVars.map (fun e : String × ℕ => (e.1, e.2 * c.nColl)))
          ++ c.extraVars)
        (controlSize c + m * memberSize c + chainSize c),
      filter_slices_keep c _ _ hnames, hwidths, hsum]
  · intro e _ vals hlen hnom hX
    rw [sliceResult]
    apply List.ext_getElem
    · simpa using hlen.symm
    · intro k hk1 hk2
      simp only [List.getElem_map, List.getElem_range]
      have hklt : k < e.2.2 - e.2.1 := by simpa using hk1
      rw [hX k hklt, mul_comm, div_mul_cancel₀ _ hnom]
      simp [List.getD, List.getElem?_eq_getElem hk2]

/-- A concrete layout for the round-trip witness: one control `u` on a
three-point grid, an integrated state `x` and a collocated algebraic
state `w` on the global two-point grid. -/
def cfgMixedExtract : LayoutConfig where
  controls := ["u"]
  diffStates := ["x"]
  algStates := ["w"]
  pathVars := []
  extraVars := []
  integrated := ["x"]
  nTimes := fun v => if v = "u" then 3 else 2
  nColl := 2
  nominal := fun _ => 2
  ensembleSize := 1

/-- Witness for `extraction_slices_round_trip`: member 0 of
`cfgMixedExtract` with the solver output `X i = i` and integrator
replay `[9]`. -/
theorem extraction_slices_round_trip_witness :
    extractControls cfgMixedExtract (fun i => (i : ℚ)) =
      (controlSlices cfgMixedExtract).map
        (sliceResult cfgMixedExtract.nominal (fun i => (i : ℚ))) ∧
    extractStates cfgMixedExtract 0 (fun i => (i : ℚ)) (fun _ => [9]) =
      (cfgMixedExtract.integrated.map
        (fun v => (v,
          ((fun _ : String => ([9] : List ℚ)) v).map
            (fun q => cfgMixedExtract.nominal v * q))))
      ++ ((shiftSlices (controlSize cfgMixedExtract)
            (memberSlices cfgMixedExtract 0)).filter
          (fun e => decide (e.1 ∉ cfgMixedExtract.integrated))).map
        (sliceResult cfgMixedExtract.nominal (fun i => (i : ℚ))) := by
  have h := extraction_slices_round_trip cfgMixedExtract 0 (fun i => (i : ℚ))
    (fun _ => [9])
    (by intro e he; simp [cfgMixedExtract] at he)
    (by intro e he; simp [cfgMixedExtract] at he)
    (by intro e he; simp [cfgMixedExtract] at he)
  exact ⟨h.1, h.2.1⟩

/-! ## Initial conditions from history timeseries

Inside the per-ensemble-member loop, `transcribe` iterates over
`chain(differentiated_states, algebraic_states, controls)`; for each
variable with a history entry it interpolates the history at the
initial time with `nan` fill values, divides by the variable nominal,
and — unless the result is `nan` — warns when the value lies outside
the current bounds and then sets
`lbx[idx] = ubx[idx] = val` for the variable first decision-vector
slot. -/

/-- The data the history-initial-conditions loop reads: the variables
in iteration order, the per-member history lookup, nominals, each
variable first decision-vector index, and the initial time. -/
structure HistoryBoundsConfig where
  vars : List String
  history : String → Option TimeseriesQ
  nominal : String → ℚ
  firstIndex : String → ℕ
  t0 : ℚ

/-- The nominal-descaled history value at the initial time (`nan` fill
on both sides, then `val /= variable_nominal(variable)`). -/
def historyInitialValue (c : HistoryBoundsConfig) (h : TimeseriesQ)
    (v : String) : Fp :=
  (interpolateFp c.t0 h.times h.values Fp.nan Fp.nan).divQ (c.nominal v)

/-- One iteration of the loop: no history entry or a `nan` value leaves
the bounds untouched, otherwise both bounds of the variable first
slot are overwritten with the descaled value. -/
def historyStep (c : HistoryBoundsConfig) (bnds : (ℕ → Fp) × (ℕ → Fp))
    (v : String) : (ℕ → Fp) × (ℕ → Fp) :=
  match c.history v with
  | none => bnds
  | some h =>
      let val := historyInitialValue c h v
      if val.isNan then bnds
      else (Function.update bnds.1 (c.firstIndex v) val,
            Function.update bnds.2 (c.firstIndex v) val)

/-- The loop over the variables, in order. -/
def applyHistoryBoundsAux (c : HistoryBoundsConfig) :
    List String → (ℕ → Fp) × (ℕ → Fp) → (ℕ → Fp) × (ℕ → Fp)
  | [], bnds => bnds
  | v :: rest, bnds => applyHistoryBoundsAux c rest (historyStep c bnds v)

/-- The `lbx`/`ubx` arrays after the history-initial-conditions loop of
`transcribe`. -/
def applyHistoryBounds (c : HistoryBoundsConfig) (lbx ubx : ℕ → Fp) :
    (ℕ → Fp) × (ℕ → Fp) :=
  applyHistoryBoundsAux c c.vars (lbx, ubx)

lemma applyHistoryBoundsAux_untouched (c : HistoryBoundsConfig)
    (vs : List String) (i : ℕ) (hnot : ∀ v ∈ vs, c.firstIndex v ≠ i) :
    ∀ bnds : (ℕ → Fp) × (ℕ → Fp),
      (applyHistoryBoundsAux c vs bnds).1 i = bnds.1 i ∧
      (applyHistoryBoundsAux c vs bnds).2 i = bnds.2 i := by
  induction vs with
  | nil => intro bnds; exact ⟨rfl, rfl⟩
  | cons v rest ih =>
      intro bnds
      have hv : c.firstIndex v ≠ i := hnot v (List.mem_cons_self _ _)
      have hrest : ∀ w ∈ rest, c.firstIndex w ≠ i :=
        fun w hw => hnot w (List.mem_cons_of_mem _ hw)
      have hstep1 : (historyStep c bnds v).1 i = bnds.1 i := by
        rw [historyStep]
        cases c.history v with
        | none => rfl
        | some h =>
            simp only
            by_cases hn : (historyInitialValue c h v).isNan
            · simp [hn]
            · simp [hn, Function.update_noteq (Ne.symm hv)]
      have hstep2 : (historyStep c bnds v).2 i = bnds.2 i := by
        rw [historyStep]
        cases c.history v with
        | none => rfl
        | some h =>
            simp only
            by_cases hn : (historyInitialValue c h v).isNan
            · simp [hn]
            · simp [hn, Function.update_noteq (Ne.symm hv)]
      have := ih hrest (historyStep c bnds v)
      rw [applyHistoryBoundsAux]
      exact ⟨this.1.trans hstep1, this.2.trans hstep2⟩

/-- Claim C10: for every variable of the
differentiated/algebraic/control chain whose history timeseries
interpolates to a non-`nan` value at the initial time, the loop sets
both the lower and the upper bound of the variable first
decision-vector slot to the nominal-descaled history value — whatever
bounds were previously stored there (the out-of-bounds case only logs
a warning). -/
lemma applyHistoryBoundsAux_sets (c : HistoryBoundsConfig)
    (vs : List String) (v : String) (h : TimeseriesQ)
    (hmem : v ∈ vs)
    (hinj : List.Pairwise (fun a b => c.firstIndex a ≠ c.firstIndex b) vs)
    (hh : c.history v = some h)
    (hval : (historyInitialValue c h v).isNan = false) :
    ∀ bnds : (ℕ → Fp) × (ℕ → Fp),
      (applyHistoryBoundsAux c vs bnds).1 (c.firstIndex v) =
        historyInitialValue c h v ∧
      (applyHistoryBoundsAux c vs bnds).2 (c.firstIndex v) =
        historyInitialValue c h v := by
  induction vs with
  | nil => simp at hmem
  | cons w rest ih =>
      intro bnds
      rcases List.mem_cons.mp hmem with heq | hmem2
      · subst heq
        have hstep : (historyStep c bnds v).1 (c.firstIndex v) =
              historyInitialValue c h v ∧
            (historyStep c bnds v).2 (c.firstIndex v) =
              historyInitialValue c h v := by
          rw [historyStep, hh]
          simp only [hval, Bool.false_eq_true, if_false]
          exact ⟨Function.update_same _ _ _, Function.update_same _ _ _⟩
        have huntouched := applyHistoryBoundsAux_untouched c rest
          (c.firstIndex v)
          (fun u hu => Ne.symm ((List.pairwise_cons.mp hinj).1 u hu))
          (historyStep c bnds v)
        rw [applyHistoryBoundsAux]
        exact ⟨huntouched.1.trans hstep.1, huntouched.2.trans hstep.2⟩
      · have hinj2 := (List.pairwise_cons.mp hinj).2
        rw [applyHistoryBoundsAux]
        exact ih hmem2 hinj2 (historyStep c bnds w)

/-- Claim C10: for every variable of the
differentiated/algebraic/control chain whose history timeseries
interpolates to a non-`nan` value at the initial time, the loop sets
both the lower and the upper bound of the variable first
decision-vector slot to the nominal-descaled history value — whatever
bounds were previously stored there (the out-of-bounds case only logs
a warning). -/
theorem history_overrides_initial_bounds (c : HistoryBoundsConfig)
    (lbx ubx : ℕ → Fp) (v : String) (h : TimeseriesQ)
    (hmem : v ∈ c.vars)
    (hinj : List.Pairwise (fun a b => c.firstIndex a ≠ c.firstIndex b) c.vars)
    (hh : c.history v = some h)
    (hval : (historyInitialValue c h v).isNan = false) :
    (applyHistoryBounds c lbx ubx).1 (c.firstIndex v) =
      historyInitialValue c h v ∧
    (applyHistoryBounds c lbx ubx).2 (c.firstIndex v) =
      historyInitialValue c h v := by
  rw [applyHistoryBounds]
  exact applyHistoryBoundsAux_sets c c.vars v h hmem hinj hh hval (lbx, ubx)

/-- A concrete configuration for the history-override witness: variable
`x` with history value `3` at the initial time, nominal `2`, first slot
`5`, and prior bounds `[-1, 1]` on every slot (the history value `3/2`
lies outside them and still overrides them). -/
def cfgHistory : HistoryBoundsConfig where
  vars := ["x"]
  history := fun _ => some ⟨[0], [3]⟩
  nominal := fun _ => 2
  firstIndex := fun _ => 5
  t0 := 0

/-- Witness for `history_overrides_initial_bounds` on `cfgHistory`. -/
theorem history_overrides_initial_bounds_witness :
    (applyHistoryBounds cfgHistory (fun _ => Fp.fin (-1))
        (fun _ => Fp.fin 1)).1 (cfgHistory.firstIndex "x") =
      historyInitialValue cfgHistory ⟨[0], [3]⟩ "x" ∧
    (applyHistoryBounds cfgHistory (fun _ => Fp.fin (-1))
        (fun _ => Fp.fin 1)).2 (cfgHistory.firstIndex "x") =
      historyInitialValue cfgHistory ⟨[0], [3]⟩ "x" := by
  exact history_overrides_initial_bounds cfgHistory _ _ "x" ⟨[0], [3]⟩
    (by simp [cfgHistory])
    (by simp [cfgHistory])
    rfl
    (by norm_num [historyInitialValue, cfgHistory, interpolateFp, interpSeg,
      List.getLastD, Fp.divQ, Fp.isNan])

end RTCTools
